import Mathlib

/-!
# Verification of the impact-analyzer core (src/index.ts)

Shallow embedding of the dependency-impact analysis core:
the import resolver (`resolveImportPath`), the reverse dependency
index builder (`buildDependencyMap`), the bounded impact walk
(`findIndirectDependencies`), the test-relatedness classifier
(`findRelatedTests`), the risk scoring of `analyzeRisksAndImpact`,
and the input-acquisition plumbing (`findRepoRoot`, `getChangedFiles`).

File I/O boundaries (reading file contents, extracting raw import
specifiers with regexes, listing directories, invoking git) are
abstracted into explicit inputs: a file's extracted specifier list is
passed in as data, and git results are passed as `Except` values.
All string manipulation is done on `List Char` by structural
recursion so every definition evaluates inside the kernel.
-/

/-- Chars of `pre` are an initial run of `l` (JS `String.startsWith` on char lists). -/
def segStarts : List Char → List Char → Bool
  | [], _ => true
  | _ :: _, [] => false
  | a :: as, b :: bs => a == b && segStarts as bs

/-- `needle` occurs contiguously inside `hay` (JS `String.includes` on char lists). -/
def containsSeg : List Char → List Char → Bool
  | [], needle => needle.isEmpty
  | c :: rest, needle => segStarts needle (c :: rest) || containsSeg rest needle

/-- JS `s.startsWith(pre)`. -/
def strStarts (s pre : String) : Bool := segStarts pre.data s.data

/-- JS `s.includes(sub)`. -/
def strContains (s sub : String) : Bool := containsSeg s.data sub.data

/-- JS `s.endsWith(suf)`. -/
def strEnds (s suf : String) : Bool := segStarts suf.data.reverse s.data.reverse

/-- JS `s.toLowerCase()` (ASCII, as used on file paths). -/
def strLower (s : String) : String := String.mk (s.data.map Char.toLower)

/-- JS `s.trim()`. -/
def strTrim (s : String) : String :=
  String.mk (((s.data.dropWhile Char.isWhitespace).reverse.dropWhile Char.isWhitespace).reverse)

/-- Split a character list on `/` (helper for `splitPath`). -/
def splitSeg : List Char → List Char → List String
  | [], acc => [String.mk acc.reverse]
  | c :: rest, acc =>
    if c = '/' then String.mk acc.reverse :: splitSeg rest []
    else splitSeg rest (c :: acc)

/-- JS `path.split('/')`. -/
def splitPath (s : String) : List String := splitSeg s.data []

/-- Normalize path segments the way Node's `path` module does for absolute
paths: drop empty and `.` segments, let `..` pop the previous segment
(excess `..` above the root is dropped). -/
def normSegs (segs : List String) : List String :=
  segs.foldl
    (fun acc seg =>
      if seg = "" ∨ seg = "." then acc
      else if seg = ".." then acc.dropLast
      else acc ++ [seg])
    []

/-- Render normalized segments as an absolute path. -/
def joinSegsAbs (segs : List String) : String :=
  segs.foldl (fun acc seg => acc ++ "/" ++ seg) ""

/-- Node `path.join(base, rel)` for an absolute `base`. -/
def joinPath (base rel : String) : String :=
  let segs := normSegs (splitPath base ++ splitPath rel)
  if segs.isEmpty then "/" else joinSegsAbs segs

/-- Node `path.dirname` for an absolute path. -/
def dirname (p : String) : String :=
  let segs := (normSegs (splitPath p)).dropLast
  if segs.isEmpty then "/" else joinSegsAbs segs

/-- Drop the longest common prefix of two segment lists. -/
def dropCommon : List String → List String → List String × List String
  | a :: as, b :: bs => if a = b then dropCommon as bs else (a :: as, b :: bs)
  | as, bs => (as, bs)

/-- Render relative-path segments (no leading slash). -/
def joinSegsRel (segs : List String) : String :=
  match segs with
  | [] => ""
  | s :: rest => rest.foldl (fun acc seg => acc ++ "/" ++ seg) s

/-- Node `path.relative(fromP, toP)` for absolute paths. -/
def relativePath (fromP toP : String) : String :=
  let pair := dropCommon (normSegs (splitPath fromP)) (normSegs (splitPath toP))
  joinSegsRel (pair.1.map (fun _ => "..") ++ pair.2)

/-- Node `path.basename(p)`: the last `/`-separated segment. Also models the
source's `p.split('/')[p.split('/').length - 1]` idiom. -/
def basename (p : String) : String := (splitPath p).getLastD ""

/-- Node `path.extname(p)`: the suffix of the basename from its last dot,
where a dot at index 0 does not count. -/
def lastDotSuffix : List Char → Option (List Char)
  | [] => none
  | c :: rest =>
    match lastDotSuffix rest with
    | some s => some s
    | none => if c = '.' then some (c :: rest) else none

/-- Node `path.extname(p)`. -/
def extname (p : String) : String :=
  match (basename p).data with
  | [] => ""
  | _ :: brest =>
    match lastDotSuffix brest with
    | some s => String.mk s
    | none => ""

/-- The source's `basename(p, extname(p))`: the basename with its extension
stripped. -/
def baseNoExt (p : String) : String :=
  let base := basename p
  let ext := extname p
  if ext.data.length = 0 then base
  else String.mk (base.data.take (base.data.length - ext.data.length))

/-- `resolveImportPath` from src/index.ts (lines 469-494): a specifier
beginning with `.` or `/` is joined onto the referencer's directory; the
first of `resolved + ext` (for the fixed extension list, the empty
extension first) lying lexically inside `repoRoot` is returned relative to
the root; otherwise the first `resolved/index<ext>` inside the root; any
other specifier yields `none`. No on-disk existence is consulted. -/
def resolveImportPath (importPath fromFile repoRoot : String) : Option String :=
  if strStarts importPath "." || strStarts importPath "/" then
    let fromDir := dirname (joinPath repoRoot fromFile)
    let resolved := joinPath fromDir importPath
    let exts := ["", ".ts", ".tsx", ".js", ".jsx", ".py", ".go"]
    match exts.find? (fun ext => strStarts (resolved ++ ext) repoRoot) with
    | some ext => some (relativePath repoRoot (resolved ++ ext))
    | none =>
      match exts.find? (fun ext => strStarts (joinPath resolved ("index" ++ ext)) repoRoot) with
      | some ext => some (relativePath repoRoot (joinPath resolved ("index" ++ ext)))
      | none => none
  else none

/-! ## Reverse dependency index (lines 509-529 of src/index.ts) -/

/-- Reverse adjacency: target path mapped to the list of referencer paths.
Models the JS object `dependencyMap : Record<string, string[]>`. -/
abbrev DepMap := List (String × List String)

/-- `dependencyMap[target].push(referencer)`, creating the entry when absent
(JS `if (!dependencyMap[resolved]) dependencyMap[resolved] = []; ... .push(file)`). -/
def addEdge : DepMap → String → String → DepMap
  | [], target, referencer => [(target, [referencer])]
  | e :: rest, target, referencer =>
    if e.1 = target then (e.1, e.2 ++ [referencer]) :: rest
    else e :: addEdge rest target referencer

/-- `map[key] || []`: look a key up in a reverse map, defaulting to `[]`. -/
def depsOf : DepMap → String → List String
  | [], _ => []
  | e :: rest, f => if e.1 = f then e.2 else depsOf rest f

/-- `map[key] = value`: overwrite or create the entry for a key. -/
def assignKey : DepMap → String → List String → DepMap
  | [], key, v => [(key, v)]
  | e :: rest, key, v =>
    if e.1 = key then (key, v) :: rest
    else e :: assignKey rest key v

/-- One step of the index-building loop: resolve one extracted specifier of
`file` and record the reverse edge unless the resolution is `null`, the
empty string (falsy in JS), or the referencer itself
(`if (resolved && resolved !== file) dependencyMap[resolved].push(file)`). -/
def recordImport (repoRoot file : String) (dm : DepMap) (imp : String) : DepMap :=
  match resolveImportPath imp file repoRoot with
  | some resolved =>
    if resolved = "" ∨ resolved = file then dm else addEdge dm resolved file
  | none => dm

/-- The index builder of `findIndirectDependencies` (lines 509-529): fold the
per-file extracted specifier lists into a reverse edge map. The pair list
`fileImports` stands for the I/O loop `for file of allFiles` together with
`extractImports(file, content)`. -/
def buildDependencyMap (fileImports : List (String × List String)) (repoRoot : String) : DepMap :=
  fileImports.foldl (fun dm fi => fi.2.foldl (recordImport repoRoot fi.1) dm) []

/-! ## Impact graph walk (lines 497-573 of src/index.ts) -/

/-- Insert into a JS `Set` modeled as an insertion-ordered duplicate-free list. -/
def setInsert (l : List String) (x : String) : List String :=
  if l.contains x then l else l ++ [x]

/-- `Array.from(new Set(l))`: deduplicate keeping first occurrences. -/
def dedupList (l : List String) : List String := l.foldl setInsert []

/-- Mutable state of the `findIndirect` recursion: the shared `processed`
set, the `indirectDeps` map and the `allAffected` set. -/
structure WalkState where
  processed : List String
  indirect : DepMap
  allAffected : List String
deriving DecidableEq

/-- The nested `findIndirect(file, depth)` recursion (lines 541-558).
`fuel` drives structural termination; every call made by the analyzer
supplies `fuel = maxDepth + 1 - depth`, which the depth guard
`depth > maxDepth` makes sufficient (theorem `findIndirect_fuel_irrelevant`
below). -/
def findIndirectAux (dm : DepMap) (maxDepth : Nat) : Nat → String → Nat → WalkState → WalkState
  | 0, _, _, st => st
  | fuel + 1, file, depth, st =>
    if maxDepth < depth then st
    else if st.processed.contains file then st
    else
      let st1 : WalkState := { st with processed := setInsert st.processed file }
      let dependents := depsOf dm file
      if dependents.isEmpty then st1
      else
        let st2 : WalkState := { st1 with indirect := assignKey st1.indirect file dependents }
        dependents.foldl
          (fun s dep =>
            findIndirectAux dm maxDepth fuel dep (depth + 1)
              { s with allAffected := setInsert s.allAffected dep })
          st2

/-- The loop `directDeps[changedFile.path] = dependencyMap[changedFile.path] || []`
(lines 532-536), restricted to the map component. -/
def buildDirectDeps (dm : DepMap) (changedPaths : List String) : DepMap :=
  changedPaths.foldl (fun d p => assignKey d p (depsOf dm p)) []

/-- The same loop's `dependents.forEach(dep => allAffected.add(dep))` component. -/
def affectedAfterDirect (dm : DepMap) (changedPaths : List String) (a0 : List String) : List String :=
  changedPaths.foldl (fun a p => (depsOf dm p).foldl setInsert a) a0

/-- Result record of `findIndirectDependencies`. -/
structure ImpactResult where
  direct : DepMap
  indirect : DepMap
  allAffected : List String
deriving DecidableEq

/-- `findIndirectDependencies` (lines 497-573): build the reverse index from
the per-file extracted specifiers, collect direct dependents of every
changed path, then run the depth-bounded `findIndirect` walk from each
direct dependent with one `processed` set shared across the batch.
`changedPaths` is `changedFiles.map(f => f.path)`. -/
def findIndirectDependencies (changedPaths : List String) (fileImports : List (String × List String))
    (repoRoot : String) (maxDepth : Nat) : ImpactResult :=
  let allAffected0 := dedupList changedPaths
  let dependencyMap := buildDependencyMap fileImports repoRoot
  let directDeps := buildDirectDeps dependencyMap changedPaths
  let allAffected1 := affectedAfterDirect dependencyMap changedPaths allAffected0
  let st0 : WalkState := ⟨dedupList changedPaths, [], allAffected1⟩
  let stF := changedPaths.foldl
    (fun st p =>
      (depsOf directDeps p).foldl
        (fun st dep => findIndirectAux dependencyMap maxDepth maxDepth dep 1 st) st)
    st0
  ⟨directDeps, stF.indirect, stF.allAffected⟩

/-- All nodes reachable from `src` along at most `n` reverse-dependency
edges of `dm` (a changed file's direct dependents are one hop away). -/
def reachWithin (dm : DepMap) (src : List String) : Nat → List String
  | 0 => src
  | n + 1 =>
    let r := reachWithin dm src n
    r ++ r.flatMap (depsOf dm)

/-- `f` occurs in a reverse map, as a key or inside a dependents list. -/
def mentionsFile (m : DepMap) (f : String) : Prop :=
  ∃ e ∈ m, e.1 = f ∨ f ∈ e.2

instance (m : DepMap) (f : String) : Decidable (mentionsFile m f) := by
  unfold mentionsFile; infer_instance

example :
    (findIndirectDependencies ["a.ts"] [("b.ts", ["./a.ts"]), ("c.ts", ["./b.ts"])] "/r" 2).allAffected
      = ["a.ts", "b.ts", "c.ts"] := by decide

example :
    (findIndirectDependencies ["a.ts"] [("b.ts", ["./a.ts"]), ("c.ts", ["./b.ts"])] "/r" 2).indirect
      = [("b.ts", ["c.ts"])] := by decide

/-! ## Test relatedness classifier (lines 576-681 of src/index.ts) -/

/-- The three-tier confidence scheme of `findRelatedTests`. -/
inductive Confidence where
  | low
  | medium
  | high
deriving DecidableEq

/-- Ordinal rank of a confidence tier. -/
def confRank : Confidence → Nat
  | Confidence.low => 0
  | Confidence.medium => 1
  | Confidence.high => 2

/-- One candidate test file: its path, its extracted import specifiers and
its raw content (the I/O of `readFileContent` and `extractImports`). -/
structure TestInput where
  testFile : String
  imports : List String
  content : String
deriving DecidableEq

/-- The mutable per-test state of the classifier loop: the `related` array
and the `confidence` variable. -/
structure TestEval where
  related : List String
  conf : Confidence
deriving DecidableEq

/-- One iteration of the import-evidence loop (lines 628-634): a specifier
resolving to a truthy path contained in `changedPaths` is pushed and the
confidence set to high. -/
def impStep (repoRoot : String) (changedPaths : List String) (testFile : String)
    (s : TestEval) (imp : String) : TestEval :=
  match resolveImportPath imp testFile repoRoot with
  | some resolved =>
    if resolved ≠ "" ∧ changedPaths.contains resolved then
      ⟨s.related ++ [resolved], Confidence.high⟩
    else s
  | none => s

/-- The import-evidence loop of `findRelatedTests`. -/
def phaseImports (repoRoot : String) (changedPaths : List String) (testFile : String)
    (imports : List String) (s : TestEval) : TestEval :=
  imports.foldl (impStep repoRoot changedPaths testFile) s

/-- One iteration of the name-similarity loop (lines 637-648): when the test
base name and a changed base name contain one another, no already-related
path is a changed path, and the matching changed file is not yet related,
push it and raise a low confidence to medium. -/
def nameStep (changedPaths : List String) (testFileName : String)
    (s : TestEval) (changedFileName : String) : TestEval :=
  if strContains testFileName changedFileName || strContains changedFileName testFileName then
    if ¬ s.related.any (fun r => changedPaths.contains r) then
      match changedPaths.find? (fun p => baseNoExt p = changedFileName) with
      | some matching =>
        if ¬ s.related.contains matching then
          ⟨s.related ++ [matching],
            if s.conf = Confidence.low then Confidence.medium else s.conf⟩
        else s
      | none => s
    else s
  else s

/-- The name-similarity loop of `findRelatedTests`; `changedFileNames` is
`changedFiles.map(f => basename(f.path, extname(f.path)))`. -/
def phaseNames (changedPaths : List String) (testFile : String) (s : TestEval) : TestEval :=
  (changedPaths.map baseNoExt).foldl (nameStep changedPaths (baseNoExt testFile)) s

/-- One iteration of the textual-mention loop (lines 651-658): when the test
content contains the changed file's bare filename and the path is not yet
related, push it; the confidence assignment `low := low` is the source's
no-op. -/
def mentionStep (content : String) (s : TestEval) (changedPath : String) : TestEval :=
  if strContains content (basename changedPath) ∧ ¬ s.related.contains changedPath then
    ⟨s.related ++ [changedPath],
      if s.conf = Confidence.low then Confidence.low else s.conf⟩
  else s

/-- The textual-mention loop of `findRelatedTests`. -/
def phaseMentions (changedPaths : List String) (content : String) (s : TestEval) : TestEval :=
  changedPaths.foldl (mentionStep content) s

/-- Evaluation of one candidate test file: the three signal loops run in
sequence on state initialized to `related = []`, `confidence = low`. -/
def evalTest (repoRoot : String) (changedPaths : List String) (t : TestInput) : TestEval :=
  phaseMentions changedPaths t.content
    (phaseNames changedPaths t.testFile
      (phaseImports repoRoot changedPaths t.testFile t.imports ⟨[], Confidence.low⟩))

/-- One entry of the `relatedTests` output array. -/
structure TestRelation where
  testFile : String
  relatedTo : List String
  confidence : Confidence
deriving DecidableEq

/-- Result record of `findRelatedTests`. -/
structure RelatedResult where
  relatedTests : List TestRelation
  covered : Nat
  total : Nat
  percentage : Nat
  missingTests : List String
deriving DecidableEq

/-- Exact nearest-integer (half up) rounding of `n / d * 100`: the
formalization of the claim's and the spec's words "rounded to the nearest
integer". The program instead computes `Math.round((n / d) * 100)` in IEEE
binary64 arithmetic, modeled exactly by `jsRoundPct` below; the two differ
at reachable inputs such as `n = 23, d = 40` (57.5 exactly, but
57.49999999999999 in doubles). -/
def roundPct (n d : Nat) : Nat := (200 * n + d) / (2 * d)

/-- Largest `d2 ≥ d` with `b * 2 ^ d2 ≤ a`, by fuel recursion. Fuel `a`
always suffices: the loop stops after at most `log2 (a / b) < a` steps. -/
def floorLog2Up : Nat → Nat → Nat → Nat → Nat
  | 0, _, _, d => d
  | fuel + 1, a, b, d => if b * 2 ^ (d + 1) ≤ a then floorLog2Up fuel a b (d + 1) else d

/-- Smallest `k2 ≥ k` with `b ≤ a * 2 ^ k2`, by fuel recursion. Fuel `b`
always suffices for `a ≥ 1`: at most `log2 b + 1 ≤ b` steps. -/
def ceilLog2Down : Nat → Nat → Nat → Nat → Nat
  | 0, _, _, k => k
  | fuel + 1, a, b, k => if b ≤ a * 2 ^ k then k else ceilLog2Down fuel a b (k + 1)

/-- `⌊log2 (a / b)⌋` for `a, b ≥ 1`, as an integer. -/
def floorLog2 (a b : Nat) : Int :=
  if b ≤ a then Int.ofNat (floorLog2Up a a b 0)
  else - Int.ofNat (ceilLog2Down b a b 0)

/-- Round the rational `a / b ≥ 0` to the nearest integer, ties to even
(the IEEE 754 default rounding of the significand). -/
def rnTiesEven (a b : Nat) : Nat :=
  let n0 := a / b
  let r := a % b
  if 2 * r < b then n0
  else if b < 2 * r then n0 + 1
  else if n0 % 2 = 0 then n0 else n0 + 1

/-- Round the rational `a / b ≥ 0` to the nearest integer, ties toward
`+∞`: ECMA `Math.round` on a nonnegative value. -/
def rnTiesUp (a b : Nat) : Nat :=
  if b ≤ 2 * (a % b) then a / b + 1 else a / b

/-- The IEEE binary64 value nearest to `a / b`, as an exact dyadic rational
`(num, den)` with `den` a power of two: significand spacing `2 ^ (e - 52)`
for exponent `e = ⌊log2 (a / b)⌋`, floored at the subnormal spacing
`2 ^ (-1074)`, with round-to-nearest-ties-to-even. Exact for every finite
double result; the overflow-to-infinity and division-by-zero cases of IEEE
arithmetic are unreachable in the coverage pipeline, whose ratios lie in
`[0, 1]` and products in `[0, 100]` (theorem `coveredList_subset`). -/
def roundB64 (a b : Nat) : Nat × Nat :=
  if a = 0 then (0, 1)
  else if b = 0 then (0, 1)
  else
    let s : Int := max (floorLog2 a b - 52) (-1074)
    if s ≤ 0 then
      let k := (-s).toNat
      (rnTiesEven (a * 2 ^ k) b, 2 ^ k)
    else
      let k := s.toNat
      (rnTiesEven a (b * 2 ^ k) * 2 ^ k, 1)

/-- The program's `Math.round((covered / total) * 100)` (line 677), modeled
exactly: one correctly rounded binary64 division, one correctly rounded
binary64 multiplication by 100, then `Math.round` on the exact resulting
dyadic value. -/
def jsRoundPct (covered total : Nat) : Nat :=
  let d1 := roundB64 covered total
  let d2 := roundB64 (100 * d1.1) d1.2
  rnTiesUp d2.1 d2.2

example : jsRoundPct 23 40 = 57 := by decide
example : roundPct 23 40 = 58 := by decide
example : jsRoundPct 2 3 = 67 := by decide
example : jsRoundPct 0 5 = 0 := by decide
example : jsRoundPct 5 5 = 100 := by decide

/-- `findRelatedTests` (lines 576-681), with the candidate-corpus I/O
(directory scans and on-disk sibling probes) abstracted into the `tests`
list. Each test with a nonempty `related` list is reported; coverage is the
number of distinct covered paths over the number of changed files, as the
double-precision rounded percentage `Math.round((covered / total) * 100)`
that defaults to 100 on an empty change set. -/
def findRelatedTests (changedPaths : List String) (tests : List TestInput)
    (repoRoot : String) : RelatedResult :=
  let relatedTests := tests.foldl
    (fun acc t =>
      let e := evalTest repoRoot changedPaths t
      if e.related.isEmpty then acc
      else acc ++ [⟨t.testFile, e.related, e.conf⟩])
    []
  let coveredFiles := dedupList (relatedTests.flatMap (fun t => t.relatedTo))
  let missingTests := changedPaths.filter (fun p => ¬ coveredFiles.contains p)
  { relatedTests := relatedTests
    covered := coveredFiles.length
    total := changedPaths.length
    percentage :=
      if 0 < changedPaths.length then jsRoundPct coveredFiles.length changedPaths.length else 100
    missingTests := missingTests }

/-- The deduplicated covered-files list of `findRelatedTests`
(`new Set(relatedTests.flatMap(t => t.relatedTo))`). -/
def coveredList (r : RelatedResult) : List String :=
  dedupList (r.relatedTests.flatMap (fun t => t.relatedTo))

example :
    (findRelatedTests ["A.ts", "B.ts", "C.ts"] [⟨"A.test.ts", ["./A.ts", "./B.ts"], ""⟩] "/r").percentage
      = 67 := by decide

example :
    (findRelatedTests ["A.ts", "B.ts", "C.ts"] [⟨"A.test.ts", ["./A.ts", "./B.ts"], ""⟩] "/r").missingTests
      = ["C.ts"] := by decide

/-- A ChangeSet of forty files, for exhibiting the `covered = 23,
total = 40` coverage computation. -/
def c7ChangedForty : List String :=
  ["f01.ts", "f02.ts", "f03.ts", "f04.ts", "f05.ts", "f06.ts", "f07.ts", "f08.ts",
   "f09.ts", "f10.ts", "f11.ts", "f12.ts", "f13.ts", "f14.ts", "f15.ts", "f16.ts",
   "f17.ts", "f18.ts", "f19.ts", "f20.ts", "f21.ts", "f22.ts", "f23.ts", "f24.ts",
   "f25.ts", "f26.ts", "f27.ts", "f28.ts", "f29.ts", "f30.ts", "f31.ts", "f32.ts",
   "f33.ts", "f34.ts", "f35.ts", "f36.ts", "f37.ts", "f38.ts", "f39.ts", "f40.ts"]

/-- A candidate test file whose imports resolve to the first twenty-three
of the forty changed files. -/
def c7TestTwentyThree : TestInput :=
  ⟨"t.spec.ts",
   ["./f01.ts", "./f02.ts", "./f03.ts", "./f04.ts", "./f05.ts", "./f06.ts", "./f07.ts",
    "./f08.ts", "./f09.ts", "./f10.ts", "./f11.ts", "./f12.ts", "./f13.ts", "./f14.ts",
    "./f15.ts", "./f16.ts", "./f17.ts", "./f18.ts", "./f19.ts", "./f20.ts", "./f21.ts",
    "./f22.ts", "./f23.ts"],
   ""⟩

/-! ## Risk scoring of `analyzeRisksAndImpact` (lines 900-968 of src/index.ts) -/

/-- One changed file of the ChangeSet, as produced by `getChangedFiles`. -/
structure ChangedFile where
  path : String
  additions : Nat
  deletions : Nat
deriving DecidableEq

/-- Path signal: GraphQL schema files (lines 901-905). -/
def hasSchemaChanges (cf : List ChangedFile) : Bool :=
  cf.any (fun f =>
    strContains f.path "schema.graphql" || strContains f.path "schema.gql" ||
    strContains f.path ".graphql")

/-- Path signal: database migration/model paths (lines 907-912). -/
def hasDBChanges (cf : List ChangedFile) : Bool :=
  cf.any (fun f =>
    strContains f.path "/migrations/" || strContains f.path "/models/" ||
    strContains (strLower f.path) "model.js" || strContains (strLower f.path) "module.js")

/-- Path signal: auth/permission/role paths (lines 914-918). -/
def hasAuthChanges (cf : List ChangedFile) : Bool :=
  cf.any (fun f =>
    strContains (strLower f.path) "auth" || strContains (strLower f.path) "permission" ||
    strContains (strLower f.path) "role")

/-- Path signal: API/GraphQL paths (lines 920-924). -/
def hasAPIChanges (cf : List ChangedFile) : Bool :=
  cf.any (fun f =>
    strContains f.path "/api/" || strContains f.path ".gql.js" ||
    strContains f.path "/graphql/")

/-- Path signal: UI component paths (lines 926-931). -/
def hasUIComponents (cf : List ChangedFile) : Bool :=
  cf.any (fun f =>
    strContains f.path "/components/" || strContains f.path "/pages/" ||
    strEnds f.path ".jsx" || strEnds f.path ".tsx")

/-- Path signal: state-management paths (lines 933-937). -/
def hasStateManagement (cf : List ChangedFile) : Bool :=
  cf.any (fun f =>
    strContains f.path "redux" || strContains f.path "store" || strContains f.path "context")

/-- Path signal: utility/helper paths (lines 939-942). -/
def hasUtilityChanges (cf : List ChangedFile) : Bool :=
  cf.any (fun f => strContains f.path "/utils/" || strContains f.path "/helpers/")

/-- Path signal: configuration paths (lines 944-948). -/
def hasConfigChanges (cf : List ChangedFile) : Bool :=
  cf.any (fun f =>
    strContains f.path "package.json" || strContains f.path ".env" ||
    strContains f.path "config.")

/-- Size signal: total added plus deleted lines above 200 (line 950). -/
def isLargeChange (cf : List ChangedFile) : Bool :=
  decide (200 < cf.foldl (fun sum f => sum + f.additions + f.deletions) 0)

/-- Size signal: more than five changed files (line 951). -/
def hasMultipleFiles (cf : List ChangedFile) : Bool :=
  decide (5 < cf.length)

/-- Size signal: some file with deletions above its additions and above 50
(line 952). -/
def hasFilesDeletion (cf : List ChangedFile) : Bool :=
  cf.any (fun f => decide (f.additions < f.deletions) && decide (50 < f.deletions))

/-- The risk score accumulation (lines 955-963): each true signal adds its
fixed weight; `coveragePct` is `testAnalysis.testCoverage.percentage`. -/
def riskScore (cf : List ChangedFile) (coveragePct : Nat) : Nat :=
  (if hasSchemaChanges cf then 3 else 0) +
  (if hasDBChanges cf then 4 else 0) +
  (if hasAuthChanges cf then 4 else 0) +
  (if hasAPIChanges cf then 2 else 0) +
  (if isLargeChange cf then 2 else 0) +
  (if hasMultipleFiles cf then 1 else 0) +
  (if coveragePct < 50 then 3 else 0) +
  (if hasFilesDeletion cf then 2 else 0)

/-- The four-tier ordinal risk level. -/
inductive RiskLevel where
  | Low
  | Medium
  | High
  | Critical
deriving DecidableEq

/-- The threshold mapping (lines 965-968): Critical at score 10 and above,
High at 6, Medium at 3, otherwise Low. -/
def levelOfScore (s : Nat) : RiskLevel :=
  if 10 ≤ s then RiskLevel.Critical
  else if 6 ≤ s then RiskLevel.High
  else if 3 ≤ s then RiskLevel.Medium
  else RiskLevel.Low

/-- `risks.riskLevel` as computed by `analyzeRisksAndImpact`. -/
def riskLevel (cf : List ChangedFile) (coveragePct : Nat) : RiskLevel :=
  levelOfScore (riskScore cf coveragePct)

/-- `if b then 1 else 0`, for stating the fixed-weight decomposition. -/
def b2n (b : Bool) : Nat := if b then 1 else 0

/-! ## Input acquisition (lines 280-287 and 330-346 of src/index.ts) -/

/-- `findRepoRoot`: the result of `git rev-parse --show-toplevel`, trimmed;
on failure the catch branch returns `process.cwd()` instead of failing. -/
def findRepoRoot (revparse : Except String String) (cwd : String) : String :=
  match revparse with
  | Except.ok root => strTrim root
  | Except.error _ => cwd

/-- `getChangedFiles`: the mapped `git diffSummary` file list; on failure
the catch branch returns the empty list instead of failing. -/
def getChangedFiles (diffSummary : Except String (List ChangedFile)) : List ChangedFile :=
  match diffSummary with
  | Except.ok files => files
  | Except.error _ => []

/-- Output record of `analyzeIndirectDependencies` restricted to the fields
the claims concern. -/
structure DepAnalysis where
  changedFiles : List String
  allAffectedFiles : List String
deriving DecidableEq

/-- `analyzeIndirectDependencies` (lines 694-714): obtain the repository
root and changed files, then run the impact analysis. The `Except` result
type expresses the interface's failure channel; the body has no failing
branch. -/
def analyzeIndirectDependenciesModel (revparse : Except String String) (cwd : String)
    (diffSummary : Except String (List ChangedFile))
    (fileImports : List (String × List String)) (maxDepth : Nat) :
    Except String DepAnalysis :=
  let repoRoot := findRepoRoot revparse cwd
  let changedFiles := getChangedFiles diffSummary
  let deps := findIndirectDependencies (changedFiles.map (fun f => f.path)) fileImports repoRoot maxDepth
  Except.ok ⟨changedFiles.map (fun f => f.path), deps.allAffected⟩

/-- `Except` value carries a success. -/
def isOkE {ε α : Type} : Except ε α → Bool
  | Except.ok _ => true
  | Except.error _ => false

/-- Modelled from the spec (section 4.2), for comparison with the code's
`resolveImportPath`: the same resolution order (literal path, then each
source extension appended, then directory `index` files) but accepting the
first candidate that exists on disk, `diskFiles` being the repository's
files relative to the root. The code itself never consults the disk; this
definition captures the claim's reading "resolves on disk to B". -/
def resolveImportPathSpecDisk (importPath fromFile repoRoot : String)
    (diskFiles : List String) : Option String :=
  if strStarts importPath "." || strStarts importPath "/" then
    let fromDir := dirname (joinPath repoRoot fromFile)
    let resolved := joinPath fromDir importPath
    let exts := ["", ".ts", ".tsx", ".js", ".jsx", ".py", ".go"]
    match exts.find? (fun ext =>
        strStarts (resolved ++ ext) repoRoot &&
        diskFiles.contains (relativePath repoRoot (resolved ++ ext))) with
    | some ext => some (relativePath repoRoot (resolved ++ ext))
    | none =>
      match exts.find? (fun ext =>
          strStarts (joinPath resolved ("index" ++ ext)) repoRoot &&
          diskFiles.contains (relativePath repoRoot (joinPath resolved ("index" ++ ext)))) with
      | some ext => some (relativePath repoRoot (joinPath resolved ("index" ++ ext)))
      | none => none
  else none

example :
    resolveImportPathSpecDisk "./b" "a.ts" "/repo" ["a.ts", "b.ts"] = some "b.ts" := by decide

/-! ## Generic fold and set lemmas -/

theorem foldl_preserve_mem {α β : Type} (P : β → Prop) (f : β → α → β) :
    ∀ l : List α, (∀ a ∈ l, ∀ b, P b → P (f b a)) → ∀ b, P b → P (List.foldl f b l) := by
  intro l
  induction l with
  | nil => intro _ b hb; simpa using hb
  | cons x xs ih =>
    intro h b hb
    simp only [List.foldl_cons]
    exact ih (fun a ha b hb2 => h a (List.mem_cons_of_mem _ ha) b hb2) _
      (h x (List.mem_cons_self _ _) b hb)

theorem foldl_preserve {α β : Type} (P : β → Prop) (f : β → α → β)
    (h : ∀ b a, P b → P (f b a)) (l : List α) (b : β) (hb : P b) :
    P (List.foldl f b l) :=
  foldl_preserve_mem P f l (fun a _ b hb2 => h b a hb2) b hb

theorem mem_setInsert_self (l : List String) (x : String) : x ∈ setInsert l x := by
  unfold setInsert
  split
  next h => simpa [List.contains] using h
  next => simp

theorem mem_setInsert_of_mem {l : List String} {y : String} (x : String) (hy : y ∈ l) :
    y ∈ setInsert l x := by
  unfold setInsert
  split
  · exact hy
  · exact List.mem_append_left _ hy

theorem mem_of_mem_setInsert {l : List String} {x y : String} (h : y ∈ setInsert l x) :
    y ∈ l ∨ y = x := by
  unfold setInsert at h
  split at h
  · exact Or.inl h
  · rcases List.mem_append.mp h with h1 | h1
    · exact Or.inl h1
    · simp at h1
      exact Or.inr h1

theorem nodup_setInsert {l : List String} (x : String) (h : l.Nodup) :
    (setInsert l x).Nodup := by
  unfold setInsert
  split
  next => exact h
  next hc =>
    refine List.Nodup.append h (List.nodup_singleton x) ?_
    intro a ha hax
    simp at hax
    subst hax
    exact hc (by simpa [List.contains] using ha)

theorem mem_foldl_setInsert {l : List String} {a0 : List String} {x : String} :
    x ∈ l.foldl setInsert a0 ↔ x ∈ a0 ∨ x ∈ l := by
  induction l generalizing a0 with
  | nil => simp
  | cons y ys ih =>
    simp only [List.foldl_cons, ih, List.mem_cons]
    constructor
    · rintro (h | h)
      · rcases mem_of_mem_setInsert h with h1 | h1
        · exact Or.inl h1
        · exact Or.inr (Or.inl h1)
      · exact Or.inr (Or.inr h)
    · rintro (h | h | h)
      · exact Or.inl (mem_setInsert_of_mem _ h)
      · subst h
        exact Or.inl (mem_setInsert_self _ _)
      · exact Or.inr h

theorem nodup_foldl_setInsert (l : List String) {a0 : List String} (h : a0.Nodup) :
    (l.foldl setInsert a0).Nodup :=
  foldl_preserve (fun a => a.Nodup) setInsert (fun b a hb => nodup_setInsert a hb) l a0 h

theorem mem_dedupList {l : List String} {x : String} : x ∈ dedupList l ↔ x ∈ l := by
  unfold dedupList
  rw [mem_foldl_setInsert]
  simp

theorem nodup_dedupList (l : List String) : (dedupList l).Nodup :=
  nodup_foldl_setInsert l List.nodup_nil

/-! ## Reverse-map lemmas -/

theorem depsOf_addEdge (dm : DepMap) (t r x : String) :
    depsOf (addEdge dm t r) x = if x = t then depsOf dm t ++ [r] else depsOf dm x := by
  induction dm with
  | nil =>
    by_cases h : x = t
    · subst h
      simp [addEdge, depsOf]
    · have h2 : ¬ t = x := fun hh => h hh.symm
      simp [addEdge, depsOf, h, h2]
  | cons e rest ih =>
    by_cases he : e.1 = t
    · by_cases hx : x = t
      · subst hx
        simp [addEdge, he, depsOf]
      · have hex : ¬ e.1 = x := fun hh => hx (hh ▸ he)
        have htx : ¬ t = x := fun hh => hx hh.symm
        simp [addEdge, he, depsOf, hx, hex, htx]
    · by_cases hx : x = t
      · subst hx
        simp [addEdge, he, depsOf, ih]
      · simp [addEdge, he, depsOf, ih, hx]

theorem depsOf_assignKey (dm : DepMap) (k x : String) (v : List String) :
    depsOf (assignKey dm k v) x = if x = k then v else depsOf dm x := by
  induction dm with
  | nil =>
    by_cases h : x = k
    · subst h
      simp [assignKey, depsOf]
    · have h2 : ¬ k = x := fun hh => h hh.symm
      simp [assignKey, depsOf, h, h2]
  | cons e rest ih =>
    by_cases he : e.1 = k
    · by_cases hx : x = k
      · subst hx
        simp [assignKey, he, depsOf]
      · have hex : ¬ e.1 = x := fun hh => hx (hh ▸ he)
        have hkx : ¬ k = x := fun hh => hx hh.symm
        simp [assignKey, he, depsOf, hx, hex, hkx]
    · by_cases hx : x = k
      · subst hx
        simp [assignKey, he, depsOf, ih]
      · simp [assignKey, he, depsOf, ih, hx]

theorem mentionsFile_assignKey {m : DepMap} {k f : String} {v : List String}
    (h : mentionsFile (assignKey m k v) f) : f = k ∨ f ∈ v ∨ mentionsFile m f := by
  induction m with
  | nil =>
    simp only [assignKey] at h
    rcases h with ⟨e, he, hf⟩
    simp at he
    subst he
    rcases hf with hf | hf
    · exact Or.inl hf.symm
    · exact Or.inr (Or.inl hf)
  | cons e rest ih =>
    simp only [assignKey] at h
    split at h
    next heq =>
      rcases h with ⟨e2, he2, hf⟩
      rcases List.mem_cons.mp he2 with h2 | h2
      · subst h2
        rcases hf with hf | hf
        · exact Or.inl hf.symm
        · exact Or.inr (Or.inl hf)
      · exact Or.inr (Or.inr ⟨e2, List.mem_cons_of_mem _ h2, hf⟩)
    next heq =>
      rcases h with ⟨e2, he2, hf⟩
      rcases List.mem_cons.mp he2 with h2 | h2
      · subst h2
        exact Or.inr (Or.inr ⟨e2, List.mem_cons_self _ _, hf⟩)
      · rcases ih ⟨e2, h2, hf⟩ with h3 | h3 | h3
        · exact Or.inl h3
        · exact Or.inr (Or.inl h3)
        · rcases h3 with ⟨e3, he3, hf3⟩
          exact Or.inr (Or.inr ⟨e3, List.mem_cons_of_mem _ he3, hf3⟩)

theorem mem_depsOf_recordImport {dm : DepMap} {repoRoot file imp a x : String}
    (h : a ∈ depsOf dm x) : a ∈ depsOf (recordImport repoRoot file dm imp) x := by
  unfold recordImport
  split
  next resolved heq =>
    split
    next => exact h
    next =>
      rw [depsOf_addEdge]
      split
      next hx => exact List.mem_append_left _ (hx ▸ h)
      next => exact h
  next => exact h

theorem recordImport_hit {repoRoot A B imp : String} (dm : DepMap)
    (hres : resolveImportPath imp A repoRoot = some B) (hne : B ≠ "") (hself : B ≠ A) :
    A ∈ depsOf (recordImport repoRoot A dm imp) B := by
  have hn : ¬ (B = "" ∨ B = A) := by
    rintro (h | h)
    · exact hne h
    · exact hself h
  simp only [recordImport, hres]
  rw [if_neg hn, depsOf_addEdge, if_pos rfl]
  exact List.mem_append_right _ (List.mem_singleton.mpr rfl)

theorem mem_depsOf_foldl_recordImport {repoRoot A B : String} {imps : List String}
    {imp : String} (dm : DepMap) (hmem : imp ∈ imps)
    (hres : resolveImportPath imp A repoRoot = some B) (hne : B ≠ "") (hself : B ≠ A) :
    A ∈ depsOf (imps.foldl (recordImport repoRoot A) dm) B := by
  induction imps generalizing dm with
  | nil => cases hmem
  | cons i rest ih =>
    simp only [List.foldl_cons]
    rcases List.mem_cons.mp hmem with h | h
    · subst h
      exact foldl_preserve (fun d => A ∈ depsOf d B) (recordImport repoRoot A)
        (fun d i2 hd => mem_depsOf_recordImport hd) rest _
        (recordImport_hit dm hres hne hself)
    · exact ih _ h

theorem mem_depsOf_foldl_fileImports {repoRoot A B imp : String} {impsA : List String}
    (fis : List (String × List String)) (dm : DepMap)
    (hfile : (A, impsA) ∈ fis) (hmem : imp ∈ impsA)
    (hres : resolveImportPath imp A repoRoot = some B) (hne : B ≠ "") (hself : B ≠ A) :
    A ∈ depsOf (fis.foldl (fun d fi => fi.2.foldl (recordImport repoRoot fi.1) d) dm) B := by
  induction fis generalizing dm with
  | nil => cases hfile
  | cons fi rest ih =>
    simp only [List.foldl_cons]
    rcases List.mem_cons.mp hfile with h | h
    · rw [← h]
      exact foldl_preserve (fun d => A ∈ depsOf d B)
        (fun d fi2 => fi2.2.foldl (recordImport repoRoot fi2.1) d)
        (fun d fi2 hd =>
          foldl_preserve (fun d2 => A ∈ depsOf d2 B) (recordImport repoRoot fi2.1)
            (fun d2 i2 hd2 => mem_depsOf_recordImport hd2) fi2.2 d hd)
        rest _
        (mem_depsOf_foldl_recordImport _ hmem hres hne hself)
    · exact ih _ h

theorem mem_depsOf_buildDependencyMap {fileImports : List (String × List String)}
    {repoRoot A B imp : String} {impsA : List String}
    (hfile : (A, impsA) ∈ fileImports) (hmem : imp ∈ impsA)
    (hres : resolveImportPath imp A repoRoot = some B) (hne : B ≠ "") (hself : B ≠ A) :
    A ∈ depsOf (buildDependencyMap fileImports repoRoot) B :=
  mem_depsOf_foldl_fileImports fileImports [] hfile hmem hres hne hself

theorem depsOf_foldl_assign {dm : DepMap} {p : String} (l : List String) (d0 : DepMap)
    (h : p ∈ l ∨ depsOf d0 p = depsOf dm p) :
    depsOf (l.foldl (fun d q => assignKey d q (depsOf dm q)) d0) p = depsOf dm p := by
  induction l generalizing d0 with
  | nil =>
    rcases h with h | h
    · cases h
    · simpa using h
  | cons q rest ih =>
    simp only [List.foldl_cons]
    by_cases hq : p = q
    · subst hq
      exact ih _ (Or.inr (by rw [depsOf_assignKey, if_pos rfl]))
    · rcases h with h | h
      · rcases List.mem_cons.mp h with h1 | h1
        · exact absurd h1 hq
        · exact ih _ (Or.inl h1)
      · exact ih _ (Or.inr (by rw [depsOf_assignKey, if_neg hq]; exact h))

theorem depsOf_buildDirectDeps {dm : DepMap} {changedPaths : List String} {p : String}
    (hp : p ∈ changedPaths) :
    depsOf (buildDirectDeps dm changedPaths) p = depsOf dm p :=
  depsOf_foldl_assign changedPaths [] (Or.inl hp)

/-! ## Reachability lemmas -/

theorem reachWithin_succ_mono {dm : DepMap} {src : List String} {n : Nat} {x : String}
    (h : x ∈ reachWithin dm src n) : x ∈ reachWithin dm src (n + 1) := by
  simp only [reachWithin]
  exact List.mem_append_left _ h

theorem reachWithin_mono {dm : DepMap} {src : List String} {n m : Nat} (hnm : n ≤ m)
    {x : String} (h : x ∈ reachWithin dm src n) : x ∈ reachWithin dm src m := by
  induction hnm with
  | refl => exact h
  | step _ ih => exact reachWithin_succ_mono ih

theorem mem_reach_src {dm : DepMap} {src : List String} {x : String} (n : Nat) (h : x ∈ src) :
    x ∈ reachWithin dm src n := by
  induction n with
  | zero => exact h
  | succ n ih => exact reachWithin_succ_mono ih

theorem mem_reach_step {dm : DepMap} {src : List String} {n : Nat} {x y : String}
    (hx : x ∈ reachWithin dm src n) (hy : y ∈ depsOf dm x) :
    y ∈ reachWithin dm src (n + 1) := by
  simp only [reachWithin]
  exact List.mem_append_right _ (List.mem_flatMap.mpr ⟨x, hx, hy⟩)

/-! ## Walk lemmas -/

theorem findIndirectAux_preserve (dm : DepMap) (maxD : Nat) (P : WalkState → Prop)
    (hproc : ∀ st f, P st → P { st with processed := setInsert st.processed f })
    (hind : ∀ st f deps, P st → P { st with indirect := assignKey st.indirect f deps })
    (haff : ∀ st x, P st → P { st with allAffected := setInsert st.allAffected x }) :
    ∀ fuel file depth st, P st → P (findIndirectAux dm maxD fuel file depth st) := by
  intro fuel
  induction fuel with
  | zero =>
    intro file depth st h
    simpa [findIndirectAux] using h
  | succ fuel ih =>
    intro file depth st h
    simp only [findIndirectAux]
    split
    next => exact h
    next =>
      split
      next => exact h
      next =>
        split
        next => exact hproc st file h
        next =>
          refine foldl_preserve P _ ?_ _ _ (hind _ file _ (hproc st file h))
          intro b a hb
          exact ih a (depth + 1) _ (haff b a hb)

/-- Invariant for the depth bound: everything mentioned in the indirect map
is reachable within `maxD + 1` reverse hops of the changed set. -/
def IndirectInv (dm : DepMap) (src : List String) (maxD : Nat) (st : WalkState) : Prop :=
  ∀ f, mentionsFile st.indirect f → f ∈ reachWithin dm src (maxD + 1)

theorem findIndirectAux_indirect_inv (dm : DepMap) (src : List String) (maxD : Nat) :
    ∀ fuel file depth st, IndirectInv dm src maxD st → file ∈ reachWithin dm src depth →
      IndirectInv dm src maxD (findIndirectAux dm maxD fuel file depth st) := by
  intro fuel
  induction fuel with
  | zero =>
    intro file depth st h _
    simpa [findIndirectAux] using h
  | succ fuel ih =>
    intro file depth st h hfile
    simp only [findIndirectAux]
    split
    next => exact h
    next hdepth =>
      have hdle : depth ≤ maxD := Nat.not_lt.mp hdepth
      split
      next => exact h
      next =>
        split
        next => exact h
        next =>
          have h2 : IndirectInv dm src maxD
              { st with
                processed := setInsert st.processed file
                indirect := assignKey st.indirect file (depsOf dm file) } := by
            intro f hf
            rcases mentionsFile_assignKey hf with hf | hf | hf
            · subst hf
              exact reachWithin_mono (Nat.le_succ_of_le hdle) hfile
            · exact reachWithin_mono (Nat.succ_le_succ hdle) (mem_reach_step hfile hf)
            · exact h f hf
          refine foldl_preserve_mem (IndirectInv dm src maxD) _ _ ?_ _ h2
          intro dep hdep st' hst'
          exact ih dep (depth + 1) _ hst' (mem_reach_step hfile hdep)

theorem findIndirectAux_depth_gt {dm : DepMap} {maxD fuel : Nat} {file : String}
    {depth : Nat} {st : WalkState} (h : maxD < depth) :
    findIndirectAux dm maxD fuel file depth st = st := by
  cases fuel with
  | zero => rfl
  | succ fuel => simp [findIndirectAux, h]

theorem findIndirectAux_processed {dm : DepMap} {maxD fuel : Nat} {file : String}
    {depth : Nat} {st : WalkState} (h : st.processed.contains file = true) :
    findIndirectAux dm maxD fuel file depth st = st := by
  have h2 : file ∈ st.processed := by simpa [List.contains] using h
  cases fuel with
  | zero => rfl
  | succ fuel => simp [findIndirectAux, h2]

theorem foldl_congr_fun {α β : Type} (f g : β → α → β) :
    ∀ l : List α, (∀ a ∈ l, ∀ b, f b a = g b a) → ∀ b, List.foldl f b l = List.foldl g b l := by
  intro l
  induction l with
  | nil => intro _ b; rfl
  | cons x xs ih =>
    intro h b
    simp only [List.foldl_cons]
    rw [h x (List.mem_cons_self _ _) b]
    exact ih (fun a ha b2 => h a (List.mem_cons_of_mem _ ha) b2) _

theorem findIndirectAux_fuel_congr (dm : DepMap) (maxD : Nat) :
    ∀ f1 f2 : Nat, ∀ file : String, ∀ depth : Nat, ∀ st : WalkState,
      maxD + 1 - depth ≤ f1 → maxD + 1 - depth ≤ f2 →
      findIndirectAux dm maxD f1 file depth st = findIndirectAux dm maxD f2 file depth st := by
  intro f1
  induction f1 with
  | zero =>
    intro f2 file depth st h1 h2
    have hd : maxD < depth := by omega
    rw [findIndirectAux_depth_gt hd, findIndirectAux_depth_gt hd]
  | succ f1 ih =>
    intro f2 file depth st h1 h2
    by_cases hd : maxD < depth
    · rw [findIndirectAux_depth_gt hd, findIndirectAux_depth_gt hd]
    · cases f2 with
      | zero => omega
      | succ f2 =>
        simp only [findIndirectAux, if_neg hd]
        split
        next => rfl
        next =>
          split
          next => rfl
          next =>
            refine foldl_congr_fun _ _ _ ?_ _
            intro dep _ s
            exact ih f2 dep (depth + 1) _ (by omega) (by omega)

/-! ## Claim theorems C1-C5 -/

/-- C1: for every ChangeSet, the `allAffected` list returned by the impact
walk contains the path of every changed file (a superset of the changed
paths) and contains no duplicate paths (set semantics). -/
theorem claim1_allAffected_superset_nodup (changedPaths : List String)
    (fileImports : List (String × List String)) (repoRoot : String) (maxDepth : Nat) :
    (∀ p ∈ changedPaths,
        p ∈ (findIndirectDependencies changedPaths fileImports repoRoot maxDepth).allAffected) ∧
    (findIndirectDependencies changedPaths fileImports repoRoot maxDepth).allAffected.Nodup := by
  have haux : ∀ fuel file depth st,
      ((∀ p ∈ changedPaths, p ∈ WalkState.allAffected st) ∧ (WalkState.allAffected st).Nodup) →
      ((∀ p ∈ changedPaths,
          p ∈ (findIndirectAux (buildDependencyMap fileImports repoRoot) maxDepth fuel file depth st).allAffected) ∧
        (findIndirectAux (buildDependencyMap fileImports repoRoot) maxDepth fuel file depth st).allAffected.Nodup) :=
    findIndirectAux_preserve _ _
      (fun st => (∀ p ∈ changedPaths, p ∈ st.allAffected) ∧ st.allAffected.Nodup)
      (fun st f h => h) (fun st f deps h => h)
      (fun st x h => ⟨fun p hp => mem_setInsert_of_mem _ (h.1 p hp), nodup_setInsert _ h.2⟩)
  have haff0 : (∀ p ∈ changedPaths,
      p ∈ affectedAfterDirect (buildDependencyMap fileImports repoRoot) changedPaths
        (dedupList changedPaths)) ∧
      (affectedAfterDirect (buildDependencyMap fileImports repoRoot) changedPaths
        (dedupList changedPaths)).Nodup := by
    unfold affectedAfterDirect
    exact foldl_preserve (fun a => (∀ p ∈ changedPaths, p ∈ a) ∧ a.Nodup)
      (fun a p => (depsOf (buildDependencyMap fileImports repoRoot) p).foldl setInsert a)
      (fun a q h =>
        foldl_preserve (fun a2 => (∀ p ∈ changedPaths, p ∈ a2) ∧ a2.Nodup) setInsert
          (fun b x hb => ⟨fun p hp => mem_setInsert_of_mem _ (hb.1 p hp), nodup_setInsert _ hb.2⟩)
          _ a h)
      changedPaths _ ⟨fun p hp => mem_dedupList.mpr hp, nodup_dedupList _⟩
  simp only [findIndirectDependencies]
  exact foldl_preserve
    (fun st : WalkState => (∀ p ∈ changedPaths, p ∈ st.allAffected) ∧ st.allAffected.Nodup)
    _
    (fun st p h =>
      foldl_preserve _ _ (fun b a hb => haux maxDepth a 1 b hb) _ st h)
    changedPaths _ haff0

theorem claim1_witness :
    "a.ts" ∈ (findIndirectDependencies ["a.ts"] [("b.ts", ["./a.ts"])] "/r" 2).allAffected :=
  (claim1_allAffected_superset_nodup ["a.ts"] [("b.ts", ["./a.ts"])] "/r" 2).1 "a.ts" (by decide)

/-- C2 counterexample: file `a.ts` holds the relative specifier `./b`,
which resolves on disk (with the extension probing the spec describes) to
`b.ts`; but the code's purely lexical resolver maps it to the extensionless
`b`, so after indexing, `b.ts` has no recorded dependents at all — neither
in the raw reverse map nor in the direct-dependents output when `b.ts` is
the changed file. -/
theorem claim2_counterexample :
    resolveImportPathSpecDisk "./b" "a.ts" "/repo" ["a.ts", "b.ts"] = some "b.ts" ∧
    resolveImportPath "./b" "a.ts" "/repo" = some "b" ∧
    depsOf (buildDependencyMap [("a.ts", ["./b"]), ("b.ts", [])] "/repo") "b.ts" = [] ∧
    depsOf (findIndirectDependencies ["b.ts"] [("a.ts", ["./b"]), ("b.ts", [])] "/repo" 2).direct
      "b.ts" = [] :=
  ⟨by decide, by decide, by decide, by decide⟩

/-- C2 (amended): if a file `A` of the scanned corpus has an extracted
specifier that the code's lexical resolver maps to exactly `B` (nonempty
and distinct from `A`), then after indexing `B`'s dependents contain `A`,
and when `B` is a changed file `A` appears among its direct dependents. -/
theorem claim2_lexically_resolved_edge_recorded
    (fileImports : List (String × List String)) (repoRoot A B imp : String)
    (impsA : List String) (changedPaths : List String) (maxDepth : Nat)
    (hfile : (A, impsA) ∈ fileImports) (hmem : imp ∈ impsA)
    (hres : resolveImportPath imp A repoRoot = some B) (hne : B ≠ "") (hself : B ≠ A) :
    A ∈ depsOf (buildDependencyMap fileImports repoRoot) B ∧
    (B ∈ changedPaths →
      A ∈ depsOf (findIndirectDependencies changedPaths fileImports repoRoot maxDepth).direct B) := by
  have h1 : A ∈ depsOf (buildDependencyMap fileImports repoRoot) B :=
    mem_depsOf_buildDependencyMap hfile hmem hres hne hself
  refine ⟨h1, fun hB => ?_⟩
  simp only [findIndirectDependencies]
  rw [depsOf_buildDirectDeps hB]
  exact h1

theorem claim2_witness :
    "a.ts" ∈ depsOf (buildDependencyMap [("a.ts", ["./b.ts"]), ("b.ts", [])] "/repo") "b.ts" ∧
    "a.ts" ∈ depsOf
      (findIndirectDependencies ["b.ts"] [("a.ts", ["./b.ts"]), ("b.ts", [])] "/repo" 2).direct
      "b.ts" := by
  have h := claim2_lexically_resolved_edge_recorded [("a.ts", ["./b.ts"]), ("b.ts", [])] "/repo"
    "a.ts" "b.ts" "./b.ts" ["./b.ts"] ["b.ts"] 2
    (by decide) (by decide) (by decide) (by decide) (by decide)
  exact ⟨h.1, h.2 (by decide)⟩

/-- C3: a specifier not beginning with `.` or `/` resolves to `null` and
the index-building step records no edge for it; and a specifier resolving
to the referencing file itself is discarded by the same step. -/
theorem claim3_bare_specifier_and_self_edge_dropped (repoRoot : String) (dm : DepMap)
    (file imp : String) :
    ((strStarts imp "." || strStarts imp "/") = false →
      resolveImportPath imp file repoRoot = none ∧ recordImport repoRoot file dm imp = dm) ∧
    (resolveImportPath imp file repoRoot = some file → recordImport repoRoot file dm imp = dm) := by
  constructor
  · intro h
    have hres : resolveImportPath imp file repoRoot = none := by
      simp [resolveImportPath, h]
    exact ⟨hres, by simp [recordImport, hres]⟩
  · intro h
    simp [recordImport, h]

theorem claim3_witness :
    resolveImportPath "lodash" "a.ts" "/repo" = none ∧
    recordImport "/repo" "a.ts" [] "lodash" = [] ∧
    recordImport "/repo" "a.ts" [] "./a.ts" = [] := by
  have h := claim3_bare_specifier_and_self_edge_dropped "/repo" [] "a.ts" "lodash"
  have h2 := claim3_bare_specifier_and_self_edge_dropped "/repo" [] "a.ts" "./a.ts"
  exact ⟨(h.1 (by decide)).1, (h.1 (by decide)).2, h2.2 (by decide)⟩

/-- C4: every file appearing in the indirect-dependents output (as a key or
inside a dependents list) is reachable from some changed file along at
most `maxDepth + 1` reverse-dependency hops; equivalently, no file whose
every reverse-edge path from every changed file is longer than
`maxDepth + 1` hops appears in the output. -/
theorem claim4_indirect_depth_bound (changedPaths : List String)
    (fileImports : List (String × List String)) (repoRoot : String) (maxDepth : Nat)
    (f : String)
    (hf : mentionsFile (findIndirectDependencies changedPaths fileImports repoRoot maxDepth).indirect f) :
    f ∈ reachWithin (buildDependencyMap fileImports repoRoot) changedPaths (maxDepth + 1) := by
  simp only [findIndirectDependencies] at hf
  have hInv : IndirectInv (buildDependencyMap fileImports repoRoot) changedPaths maxDepth
      (changedPaths.foldl
        (fun st p =>
          (depsOf (buildDirectDeps (buildDependencyMap fileImports repoRoot) changedPaths) p).foldl
            (fun st dep =>
              findIndirectAux (buildDependencyMap fileImports repoRoot) maxDepth maxDepth dep 1 st)
            st)
        ⟨dedupList changedPaths, [],
          affectedAfterDirect (buildDependencyMap fileImports repoRoot) changedPaths
            (dedupList changedPaths)⟩) := by
    refine foldl_preserve_mem (IndirectInv (buildDependencyMap fileImports repoRoot) changedPaths maxDepth)
      _ changedPaths ?_ _ ?_
    · intro p hp st hst
      refine foldl_preserve_mem (IndirectInv (buildDependencyMap fileImports repoRoot) changedPaths maxDepth)
        _ _ ?_ st hst
      intro dep hdep st2 hst2
      have hdep2 : dep ∈ depsOf (buildDependencyMap fileImports repoRoot) p := by
        rwa [depsOf_buildDirectDeps hp] at hdep
      exact findIndirectAux_indirect_inv _ _ _ maxDepth dep 1 st2 hst2
        (mem_reach_step (mem_reach_src 0 hp) hdep2)
    · intro f2 hf2
      rcases hf2 with ⟨e, he, _⟩
      cases he
  exact hInv f hf

theorem claim4_witness :
    "c.ts" ∈ reachWithin (buildDependencyMap [("b.ts", ["./a.ts"]), ("c.ts", ["./b.ts"])] "/r")
      ["a.ts"] 3 :=
  claim4_indirect_depth_bound ["a.ts"] [("b.ts", ["./a.ts"]), ("c.ts", ["./b.ts"])] "/r" 2 "c.ts"
    (by decide)

/-- C5: the bounded walk terminates on every finite index, cycles included:
a file already in the shared `processed` set is returned unchanged, a
branch whose depth exceeds the maximum is returned unchanged, and any fuel
at least `maxDepth + 1 - depth` computes the same final state, so the
recursion needs only boundedly many steps. -/
theorem claim5_walk_terminates (dm : DepMap) (maxDepth : Nat) :
    (∀ fuel file depth st, st.processed.contains file = true →
        findIndirectAux dm maxDepth fuel file depth st = st) ∧
    (∀ fuel file depth st, maxDepth < depth →
        findIndirectAux dm maxDepth fuel file depth st = st) ∧
    (∀ f1 f2 file depth st, maxDepth + 1 - depth ≤ f1 → maxDepth + 1 - depth ≤ f2 →
        findIndirectAux dm maxDepth f1 file depth st = findIndirectAux dm maxDepth f2 file depth st) :=
  ⟨fun _ _ _ _ h => findIndirectAux_processed h,
   fun _ _ _ _ h => findIndirectAux_depth_gt h,
   fun f1 f2 file depth st h1 h2 => findIndirectAux_fuel_congr dm maxDepth f1 f2 file depth st h1 h2⟩

theorem claim5_witness :
    findIndirectAux [("a", ["b"]), ("b", ["a"])] 2 5 "b" 1 ⟨["z"], [], []⟩
      = findIndirectAux [("a", ["b"]), ("b", ["a"])] 2 9 "b" 1 ⟨["z"], [], []⟩ ∧
    findIndirectAux [("a", ["b"]), ("b", ["a"])] 2 4 "z" 1 ⟨["z"], [], []⟩ = ⟨["z"], [], []⟩ :=
  ⟨(claim5_walk_terminates [("a", ["b"]), ("b", ["a"])] 2).2.2 5 9 "b" 1 ⟨["z"], [], []⟩
      (by decide) (by decide),
   (claim5_walk_terminates [("a", ["b"]), ("b", ["a"])] 2).1 4 "z" 1 ⟨["z"], [], []⟩ (by decide)⟩

/-! ## Classifier lemmas -/

theorem confRank_le_two (c : Confidence) : confRank c ≤ 2 := by
  cases c <;> simp [confRank]

theorem impStep_conf_mono (repoRoot : String) (changedPaths : List String) (testFile : String)
    (s : TestEval) (imp : String) :
    confRank s.conf ≤ confRank (impStep repoRoot changedPaths testFile s imp).conf := by
  unfold impStep
  split
  next =>
    split
    next => simpa [confRank] using confRank_le_two s.conf
    next => exact Nat.le_refl _
  next => exact Nat.le_refl _

theorem impStep_high (repoRoot : String) (changedPaths : List String) (testFile : String)
    {s : TestEval} (imp : String) (h : s.conf = Confidence.high) :
    (impStep repoRoot changedPaths testFile s imp).conf = Confidence.high := by
  unfold impStep
  split
  next =>
    split
    next => rfl
    next => exact h
  next => exact h

theorem nameStep_conf_mono (changedPaths : List String) (testFileName : String)
    (s : TestEval) (cfn : String) :
    confRank s.conf ≤ confRank (nameStep changedPaths testFileName s cfn).conf := by
  unfold nameStep
  split
  next =>
    split
    next =>
      split
      next =>
        split
        next =>
          by_cases hc : s.conf = Confidence.low
          · simp [hc, confRank]
          · simp [hc]
        next => exact Nat.le_refl _
      next => exact Nat.le_refl _
    next => exact Nat.le_refl _
  next => exact Nat.le_refl _

theorem nameStep_high (changedPaths : List String) (testFileName : String)
    {s : TestEval} (cfn : String) (h : s.conf = Confidence.high) :
    (nameStep changedPaths testFileName s cfn).conf = Confidence.high := by
  unfold nameStep
  split
  next =>
    split
    next =>
      split
      next =>
        split
        next => simp [h]
        next => exact h
      next => exact h
    next => exact h
  next => exact h

theorem mentionStep_conf_eq (content : String) (s : TestEval) (p : String) :
    (mentionStep content s p).conf = s.conf := by
  unfold mentionStep
  split
  next =>
    by_cases hc : s.conf = Confidence.low
    · simp [hc]
    · simp [hc]
  next => rfl

theorem foldl_conf_mono {α : Type} (f : TestEval → α → TestEval)
    (h : ∀ s a, confRank s.conf ≤ confRank (f s a).conf) :
    ∀ (l : List α) (s : TestEval), confRank s.conf ≤ confRank (List.foldl f s l).conf := by
  intro l
  induction l with
  | nil => intro s; exact Nat.le_refl _
  | cons x xs ih => intro s; exact Nat.le_trans (h s x) (ih (f s x))

theorem phaseImports_conf_mono (repoRoot : String) (changedPaths : List String)
    (testFile : String) (imports : List String) (s : TestEval) :
    confRank s.conf ≤ confRank (phaseImports repoRoot changedPaths testFile imports s).conf :=
  foldl_conf_mono _ (impStep_conf_mono repoRoot changedPaths testFile) imports s

theorem phaseNames_conf_mono (changedPaths : List String) (testFile : String) (s : TestEval) :
    confRank s.conf ≤ confRank (phaseNames changedPaths testFile s).conf :=
  foldl_conf_mono _ (nameStep_conf_mono changedPaths (baseNoExt testFile)) _ s

theorem phaseMentions_conf_eq (changedPaths : List String) (content : String) (s : TestEval) :
    (phaseMentions changedPaths content s).conf = s.conf := by
  unfold phaseMentions
  induction changedPaths generalizing s with
  | nil => rfl
  | cons p rest ih =>
    simp only [List.foldl_cons]
    rw [ih, mentionStep_conf_eq]

theorem phaseNames_high (changedPaths : List String) (testFile : String) {s : TestEval}
    (h : s.conf = Confidence.high) :
    (phaseNames changedPaths testFile s).conf = Confidence.high :=
  foldl_preserve (fun s2 : TestEval => s2.conf = Confidence.high) _
    (fun b a hb => nameStep_high changedPaths (baseNoExt testFile) a hb) _ s h

theorem foldl_impStep_high (repoRoot testFile : String) (changedPaths : List String)
    {imp r : String} (hres : resolveImportPath imp testFile repoRoot = some r)
    (hne : r ≠ "") (hmemc : changedPaths.contains r = true) :
    ∀ (imports : List String) (s : TestEval), imp ∈ imports →
      (imports.foldl (impStep repoRoot changedPaths testFile) s).conf = Confidence.high := by
  intro imports
  induction imports with
  | nil =>
    intro s h
    cases h
  | cons i rest ih =>
    intro s h
    simp only [List.foldl_cons]
    rcases List.mem_cons.mp h with h1 | h1
    · have hmemc2 : r ∈ changedPaths := by simpa [List.contains] using hmemc
      have hstep : (impStep repoRoot changedPaths testFile s i).conf = Confidence.high := by
        simp [impStep, ← h1, hres, hne, hmemc2]
      exact foldl_preserve (fun s2 : TestEval => s2.conf = Confidence.high) _
        (fun b a hb => impStep_high repoRoot changedPaths testFile a hb) rest _ hstep
    · exact ih _ h1

/-- C6: import evidence forces high confidence regardless of the
name-similarity and textual-mention signals that run afterwards; and each
of the three signal loops only ever raises the confidence
(low to medium to high), never lowers it. -/
theorem claim6_import_evidence_high_and_monotone (repoRoot : String)
    (changedPaths : List String) (t : TestInput) :
    ((∃ imp ∈ t.imports, ∃ r, resolveImportPath imp t.testFile repoRoot = some r ∧
        r ≠ "" ∧ changedPaths.contains r = true) →
      (evalTest repoRoot changedPaths t).conf = Confidence.high) ∧
    (∀ s, confRank s.conf ≤
        confRank (phaseImports repoRoot changedPaths t.testFile t.imports s).conf) ∧
    (∀ s, confRank s.conf ≤ confRank (phaseNames changedPaths t.testFile s).conf) ∧
    (∀ s, confRank s.conf ≤ confRank (phaseMentions changedPaths t.content s).conf) ∧
    (∀ s imp, confRank s.conf ≤
        confRank (impStep repoRoot changedPaths t.testFile s imp).conf) ∧
    (∀ s cfn, confRank s.conf ≤
        confRank (nameStep changedPaths (baseNoExt t.testFile) s cfn).conf) ∧
    (∀ s cp, confRank s.conf ≤ confRank (mentionStep t.content s cp).conf) := by
  refine ⟨?_, ?_, ?_, ?_, ?_, ?_, ?_⟩
  · rintro ⟨imp, hmem, r, hres, hne, hmemc⟩
    unfold evalTest
    rw [phaseMentions_conf_eq]
    exact phaseNames_high changedPaths t.testFile
      (foldl_impStep_high repoRoot t.testFile changedPaths hres hne hmemc t.imports _ hmem)
  · intro s
    exact phaseImports_conf_mono repoRoot changedPaths t.testFile t.imports s
  · intro s
    exact phaseNames_conf_mono changedPaths t.testFile s
  · intro s
    rw [phaseMentions_conf_eq]
  · intro s imp
    exact impStep_conf_mono repoRoot changedPaths t.testFile s imp
  · intro s cfn
    exact nameStep_conf_mono changedPaths (baseNoExt t.testFile) s cfn
  · intro s cp
    rw [mentionStep_conf_eq]

theorem claim6_witness :
    (evalTest "/r" ["A.ts"] ⟨"A.test.ts", ["./A.ts"], "mentions A.ts and B.ts"⟩).conf
      = Confidence.high :=
  (claim6_import_evidence_high_and_monotone "/r" ["A.ts"]
      ⟨"A.test.ts", ["./A.ts"], "mentions A.ts and B.ts"⟩).1
    ⟨"./A.ts", by decide, "A.ts", by decide, by decide, by decide⟩

/-! ## Covered-files lemmas -/

theorem impStep_related_subset (repoRoot : String) (changedPaths : List String)
    (testFile : String) {s : TestEval} (imp : String)
    (h : ∀ p ∈ s.related, p ∈ changedPaths) :
    ∀ p ∈ (impStep repoRoot changedPaths testFile s imp).related, p ∈ changedPaths := by
  unfold impStep
  split
  next r heq =>
    split
    next hcond =>
      intro p hp
      rcases List.mem_append.mp hp with hp | hp
      · exact h p hp
      · rw [List.mem_singleton.mp hp]
        simpa [List.contains] using hcond.2
    next => exact h
  next => exact h

theorem nameStep_related_subset (changedPaths : List String) (testFileName : String)
    {s : TestEval} (cfn : String) (h : ∀ p ∈ s.related, p ∈ changedPaths) :
    ∀ p ∈ (nameStep changedPaths testFileName s cfn).related, p ∈ changedPaths := by
  unfold nameStep
  split
  next =>
    split
    next =>
      split
      next matching heq =>
        split
        next =>
          intro p hp
          rcases List.mem_append.mp hp with hp | hp
          · exact h p hp
          · rw [List.mem_singleton.mp hp]
            exact List.mem_of_find?_eq_some heq
        next => exact h
      next => exact h
    next => exact h
  next => exact h

theorem mentionStep_related_subset (content : String) (changedPaths : List String)
    {s : TestEval} {cp : String} (hcp : cp ∈ changedPaths)
    (h : ∀ p ∈ s.related, p ∈ changedPaths) :
    ∀ p ∈ (mentionStep content s cp).related, p ∈ changedPaths := by
  unfold mentionStep
  split
  next =>
    intro p hp
    rcases List.mem_append.mp hp with hp | hp
    · exact h p hp
    · rw [List.mem_singleton.mp hp]
      exact hcp
  next => exact h

theorem evalTest_related_subset (repoRoot : String) (changedPaths : List String) (t : TestInput) :
    ∀ p ∈ (evalTest repoRoot changedPaths t).related, p ∈ changedPaths := by
  unfold evalTest phaseMentions phaseNames phaseImports
  refine foldl_preserve_mem (fun s : TestEval => ∀ p ∈ s.related, p ∈ changedPaths)
    _ _ ?_ _ ?_
  · intro cp hcp s hs
    exact mentionStep_related_subset t.content changedPaths hcp hs
  · refine foldl_preserve (fun s : TestEval => ∀ p ∈ s.related, p ∈ changedPaths) _ ?_ _ _ ?_
    · intro b a hb
      exact nameStep_related_subset changedPaths (baseNoExt t.testFile) a hb
    · refine foldl_preserve (fun s : TestEval => ∀ p ∈ s.related, p ∈ changedPaths) _ ?_ _ _ ?_
      · intro b a hb
        exact impStep_related_subset repoRoot changedPaths t.testFile a hb
      · intro p hp
        cases hp

theorem findRelatedTests_relatedTo_subset (changedPaths : List String) (tests : List TestInput)
    (repoRoot : String) :
    ∀ rel ∈ (findRelatedTests changedPaths tests repoRoot).relatedTests,
      ∀ p ∈ rel.relatedTo, p ∈ changedPaths := by
  simp only [findRelatedTests]
  refine foldl_preserve
    (fun acc : List TestRelation => ∀ rel ∈ acc, ∀ p ∈ rel.relatedTo, p ∈ changedPaths)
    _ ?_ tests _ ?_
  · intro acc t hacc
    split
    next => exact hacc
    next =>
      intro rel hrel
      rcases List.mem_append.mp hrel with h | h
      · exact hacc rel h
      · rw [List.mem_singleton.mp h]
        exact fun p hp => evalTest_related_subset repoRoot changedPaths t p hp
  · intro rel h
    cases h

theorem mem_coveredList_iff (changedPaths : List String) (tests : List TestInput)
    (repoRoot : String) (p : String) :
    p ∈ coveredList (findRelatedTests changedPaths tests repoRoot) ↔
      ∃ rel ∈ (findRelatedTests changedPaths tests repoRoot).relatedTests, p ∈ rel.relatedTo := by
  unfold coveredList
  rw [mem_dedupList, List.mem_flatMap]

theorem coveredList_subset (changedPaths : List String) (tests : List TestInput)
    (repoRoot : String) :
    ∀ p ∈ coveredList (findRelatedTests changedPaths tests repoRoot), p ∈ changedPaths := by
  intro p hp
  rcases (mem_coveredList_iff changedPaths tests repoRoot p).mp hp with ⟨rel, h1, h2⟩
  exact findRelatedTests_relatedTo_subset changedPaths tests repoRoot rel h1 p h2

theorem coveredList_nodup (changedPaths : List String) (tests : List TestInput)
    (repoRoot : String) :
    (coveredList (findRelatedTests changedPaths tests repoRoot)).Nodup :=
  nodup_dedupList _

theorem length_le_of_nodup_subset {l l2 : List String} (hn : l.Nodup)
    (hs : ∀ p ∈ l, p ∈ l2) : l.length ≤ l2.length := by
  classical
  have h2 : l.toFinset ⊆ l2.toFinset := by
    intro x hx
    exact List.mem_toFinset.mpr (hs x (List.mem_toFinset.mp hx))
  calc l.length = l.toFinset.card := (List.toFinset_card_of_nodup hn).symm
    _ ≤ l2.toFinset.card := Finset.card_le_card h2
    _ ≤ l2.length := l2.toFinset_card_le

theorem floorLog2Up_le : ∀ (fuel a b d : Nat), b * 2 ^ d ≤ a →
    b * 2 ^ (floorLog2Up fuel a b d) ≤ a := by
  intro fuel
  induction fuel with
  | zero =>
    intro a b d h
    exact h
  | succ fuel ih =>
    intro a b d h
    unfold floorLog2Up
    split
    next h2 => exact ih a b (d + 1) h2
    next => exact h

theorem rnTiesEven_le {a b N : Nat} (hb : 0 < b) (h : a ≤ N * b) : rnTiesEven a b ≤ N := by
  simp only [rnTiesEven]
  have hd : a / b ≤ N := by
    have h2 := Nat.div_le_div_right (c := b) h
    rwa [Nat.mul_div_cancel N hb] at h2
  have hdm := Nat.div_add_mod a b
  have hr : a % b < b := Nat.mod_lt _ hb
  have hNb : b * N = N * b := Nat.mul_comm b N
  split
  next => exact hd
  next h1 =>
    split
    next h2 =>
      rcases Nat.lt_or_ge (a / b) N with hlt | hge
      · omega
      · have heq : a / b = N := Nat.le_antisymm hd hge
        rw [heq] at hdm
        omega
    next h2 =>
      split
      next => exact hd
      next =>
        rcases Nat.lt_or_ge (a / b) N with hlt | hge
        · omega
        · have heq : a / b = N := Nat.le_antisymm hd hge
          rw [heq] at hdm
          omega

theorem rnTiesUp_le {a b N : Nat} (hb : 0 < b) (h : a ≤ N * b) : rnTiesUp a b ≤ N := by
  unfold rnTiesUp
  have hd : a / b ≤ N := by
    have h2 := Nat.div_le_div_right (c := b) h
    rwa [Nat.mul_div_cancel N hb] at h2
  have hdm := Nat.div_add_mod a b
  have hr : a % b < b := Nat.mod_lt _ hb
  have hNb : b * N = N * b := Nat.mul_comm b N
  split
  next h1 =>
    rcases Nat.lt_or_ge (a / b) N with hlt | hge
    · omega
    · have heq : a / b = N := Nat.le_antisymm hd hge
      rw [heq] at hdm
      omega
  next => exact hd

theorem roundB64_den_pos (a b : Nat) : 0 < (roundB64 a b).2 := by
  simp only [roundB64]
  split
  next => exact Nat.one_pos
  next =>
    split
    next => exact Nat.one_pos
    next =>
      split
      next => exact Nat.pos_pow_of_pos _ (by omega)
      next => exact Nat.one_pos

theorem roundB64_le {a b N : Nat} (hb : 0 < b) (hN : N ≤ 100) (h : a ≤ N * b) :
    (roundB64 a b).1 ≤ N * (roundB64 a b).2 := by
  simp only [roundB64]
  split
  next => simp
  next =>
    split
    next hb0 => omega
    next hb0 =>
      split
      next hs =>
        dsimp only
        refine rnTiesEven_le hb ?_
        calc a * 2 ^ (-max (floorLog2 a b - 52) (-1074)).toNat
            ≤ N * b * 2 ^ (-max (floorLog2 a b - 52) (-1074)).toNat :=
              Nat.mul_le_mul_right _ h
          _ = N * 2 ^ (-max (floorLog2 a b - 52) (-1074)).toNat * b := by ring
      next hs =>
        exfalso
        have he : 53 ≤ floorLog2 a b := by omega
        have hba : b ≤ a := by
          by_contra hba
          unfold floorLog2 at he
          rw [if_neg hba] at he
          have hnn : (0 : Int) ≤ Int.ofNat (ceilLog2Down b a b 0) := Int.ofNat_nonneg _
          omega
        have hd53 : 53 ≤ floorLog2Up a a b 0 := by
          unfold floorLog2 at he
          rw [if_pos hba] at he
          exact Int.ofNat_le.mp he
        have hinv : b * 2 ^ floorLog2Up a a b 0 ≤ a :=
          floorLog2Up_le a a b 0 (by simpa using hba)
        have hlow : b * 2 ^ 53 ≤ b * 2 ^ floorLog2Up a a b 0 :=
          Nat.mul_le_mul_left b (Nat.pow_le_pow_right (by omega) hd53)
        have hup : b * 2 ^ 53 ≤ b * 100 := by
          calc b * 2 ^ 53 ≤ a := Nat.le_trans hlow hinv
            _ ≤ N * b := h
            _ ≤ 100 * b := Nat.mul_le_mul_right b hN
            _ = b * 100 := Nat.mul_comm _ _
        have : (2 : Nat) ^ 53 ≤ 100 := Nat.le_of_mul_le_mul_left hup hb
        exact absurd this (by decide)

theorem jsRoundPct_le_100 {c t : Nat} (h : c ≤ t) (ht : 0 < t) : jsRoundPct c t ≤ 100 := by
  unfold jsRoundPct
  have h1 : (roundB64 c t).1 ≤ 1 * (roundB64 c t).2 :=
    roundB64_le ht (by omega) (by omega)
  have h2 : 100 * (roundB64 c t).1 ≤ 100 * (roundB64 c t).2 := by omega
  have h3 := roundB64_le (roundB64_den_pos c t) (Nat.le_refl 100) h2
  exact rnTiesUp_le (roundB64_den_pos _ _) h3

theorem findRelatedTests_percentage_eq (changedPaths : List String) (tests : List TestInput)
    (repoRoot : String) :
    (findRelatedTests changedPaths tests repoRoot).percentage =
      if 0 < changedPaths.length
      then jsRoundPct (coveredList (findRelatedTests changedPaths tests repoRoot)).length
        changedPaths.length
      else 100 := by
  simp only [findRelatedTests, coveredList]

/-- C7 counterexample: a ChangeSet of 40 files of which a related test
covers exactly 23. The exact ratio is 57.5 percent, so rounding to the
nearest integer gives 58 (`roundPct 23 40 = 58`); but the program computes
`Math.round((23 / 40) * 100)` in binary64, where the product is
57.49999999999999, and returns 57 — the claimed nearest-integer formula
fails at this reachable input. -/
theorem claim7_counterexample :
    (coveredList (findRelatedTests c7ChangedForty [c7TestTwentyThree] "/r")).length = 23 ∧
    c7ChangedForty.length = 40 ∧
    (findRelatedTests c7ChangedForty [c7TestTwentyThree] "/r").percentage = 57 ∧
    roundPct 23 40 = 58 ∧
    jsRoundPct 23 40 = 57 :=
  ⟨by decide, by decide, by decide, by decide, by decide⟩

/-- C7 (amended): the coverage percentage is `Math.round` of the IEEE
binary64 value `(covered / total) * 100`, where `covered` counts the
distinct changed files referenced by at least one related test; the
double rounding can differ from exact nearest-integer rounding (58 exact
versus 57 computed at covered 23 of 40). It always lies in `[0, 100]`, is
100 on an empty ChangeSet, and on ChangeSet `{A, B, C}` with tests
covering exactly `{A, B}` it is 67 with `missingTests = {C}`. -/
theorem claim7_coverage_float_pipeline (changedPaths : List String) (tests : List TestInput)
    (repoRoot : String) :
    (findRelatedTests changedPaths tests repoRoot).percentage ≤ 100 ∧
    (changedPaths = [] → (findRelatedTests changedPaths tests repoRoot).percentage = 100) ∧
    (findRelatedTests changedPaths tests repoRoot).percentage =
      (if 0 < changedPaths.length
       then jsRoundPct (coveredList (findRelatedTests changedPaths tests repoRoot)).length
         changedPaths.length
       else 100) ∧
    (coveredList (findRelatedTests changedPaths tests repoRoot)).Nodup ∧
    (∀ p, p ∈ coveredList (findRelatedTests changedPaths tests repoRoot) ↔
      (p ∈ changedPaths ∧
        ∃ rel ∈ (findRelatedTests changedPaths tests repoRoot).relatedTests, p ∈ rel.relatedTo)) ∧
    ((findRelatedTests ["A.ts", "B.ts", "C.ts"]
        [⟨"A.test.ts", ["./A.ts", "./B.ts"], ""⟩] "/r").percentage = 67 ∧
      (findRelatedTests ["A.ts", "B.ts", "C.ts"]
        [⟨"A.test.ts", ["./A.ts", "./B.ts"], ""⟩] "/r").missingTests = ["C.ts"]) := by
  refine ⟨?_, ?_, findRelatedTests_percentage_eq changedPaths tests repoRoot,
    coveredList_nodup changedPaths tests repoRoot, ?_, by decide, by decide⟩
  · rw [findRelatedTests_percentage_eq]
    split
    next ht =>
      exact jsRoundPct_le_100
        (length_le_of_nodup_subset (coveredList_nodup changedPaths tests repoRoot)
          (coveredList_subset changedPaths tests repoRoot)) ht
    next => exact Nat.le_refl _
  · intro h
    subst h
    rw [findRelatedTests_percentage_eq]
    simp
  · intro p
    constructor
    · intro hp
      exact ⟨coveredList_subset changedPaths tests repoRoot p hp,
        (mem_coveredList_iff changedPaths tests repoRoot p).mp hp⟩
    · rintro ⟨_, hex⟩
      exact (mem_coveredList_iff changedPaths tests repoRoot p).mpr hex

theorem claim7_witness :
    (findRelatedTests [] [] "/r").percentage = 100 :=
  (claim7_coverage_float_pipeline [] [] "/r").2.1 rfl

/-- C10: every path in a returned TestRelation's `relatedTo` list is a
changed file's path, and `missingTests` is exactly the set of changed
files that appear in no relation's `relatedTo` list, so the covered files
and `missingTests` partition the ChangeSet. -/
theorem claim10_relatedTo_missing_partition (changedPaths : List String)
    (tests : List TestInput) (repoRoot : String) :
    (∀ rel ∈ (findRelatedTests changedPaths tests repoRoot).relatedTests,
        ∀ p ∈ rel.relatedTo, p ∈ changedPaths) ∧
    (∀ p, p ∈ (findRelatedTests changedPaths tests repoRoot).missingTests ↔
        (p ∈ changedPaths ∧
          ∀ rel ∈ (findRelatedTests changedPaths tests repoRoot).relatedTests,
            p ∉ rel.relatedTo)) := by
  refine ⟨findRelatedTests_relatedTo_subset changedPaths tests repoRoot, ?_⟩
  intro p
  have hcov := mem_coveredList_iff changedPaths tests repoRoot p
  constructor
  · intro hp
    have h1 : p ∈ changedPaths ∧
        p ∉ coveredList (findRelatedTests changedPaths tests repoRoot) := by
      revert hp
      simp only [findRelatedTests, coveredList]
      intro hp
      rw [List.mem_filter] at hp
      refine ⟨hp.1, ?_⟩
      simpa [List.contains] using hp.2
    refine ⟨h1.1, ?_⟩
    intro rel hrel hprel
    exact h1.2 (hcov.mpr ⟨rel, hrel, hprel⟩)
  · rintro ⟨hp1, hp2⟩
    have h2 : p ∉ coveredList (findRelatedTests changedPaths tests repoRoot) := by
      intro hc
      rcases hcov.mp hc with ⟨rel, hrel, hprel⟩
      exact hp2 rel hrel hprel
    revert h2
    simp only [findRelatedTests, coveredList]
    intro h2
    rw [List.mem_filter]
    exact ⟨hp1, by simpa [List.contains] using h2⟩

theorem claim10_witness :
    "C.ts" ∈ (findRelatedTests ["A.ts", "B.ts", "C.ts"]
      [⟨"A.test.ts", ["./A.ts", "./B.ts"], ""⟩] "/r").missingTests :=
  ((claim10_relatedTo_missing_partition ["A.ts", "B.ts", "C.ts"]
      [⟨"A.test.ts", ["./A.ts", "./B.ts"], ""⟩] "/r").2 "C.ts").mpr
    ⟨by decide, by decide⟩

/-! ## Risk engine and input-acquisition claims -/

theorem ite_weight (b : Bool) (w : Nat) : (if b then w else 0) = w * b2n b := by
  cases b <;> simp [b2n]

theorem ite_weight_prop (p : Prop) [Decidable p] (w : Nat) :
    (if p then w else 0) = w * b2n (decide p) := by
  by_cases h : p <;> simp [b2n, h]

/-- C8: the risk score is a fixed-weight linear combination of the boolean
signals (schema 3, database 4, auth 4, API 2, large-change 2, multi-file 1,
low-coverage 3, large-deletion 2, and weight 0 for the UI-component,
state-management, utility and config signals, which feed findings but not
the score), and the ordinal level is given by the fixed thresholds
Critical at 10, High at 6, Medium at 3, else Low. -/
theorem claim8_fixed_weights_and_thresholds (cf : List ChangedFile) (pct : Nat) :
    riskScore cf pct =
        3 * b2n (hasSchemaChanges cf) + 4 * b2n (hasDBChanges cf) + 4 * b2n (hasAuthChanges cf) +
        2 * b2n (hasAPIChanges cf) + 2 * b2n (isLargeChange cf) + 1 * b2n (hasMultipleFiles cf) +
        3 * b2n (decide (pct < 50)) + 2 * b2n (hasFilesDeletion cf) +
        0 * b2n (hasUIComponents cf) + 0 * b2n (hasStateManagement cf) +
        0 * b2n (hasUtilityChanges cf) + 0 * b2n (hasConfigChanges cf) ∧
    (riskLevel cf pct = RiskLevel.Critical ↔ 10 ≤ riskScore cf pct) ∧
    (riskLevel cf pct = RiskLevel.High ↔ (6 ≤ riskScore cf pct ∧ riskScore cf pct < 10)) ∧
    (riskLevel cf pct = RiskLevel.Medium ↔ (3 ≤ riskScore cf pct ∧ riskScore cf pct < 6)) ∧
    (riskLevel cf pct = RiskLevel.Low ↔ riskScore cf pct < 3) := by
  have hlevel : ∀ s : Nat,
      (levelOfScore s = RiskLevel.Critical ↔ 10 ≤ s) ∧
      (levelOfScore s = RiskLevel.High ↔ (6 ≤ s ∧ s < 10)) ∧
      (levelOfScore s = RiskLevel.Medium ↔ (3 ≤ s ∧ s < 6)) ∧
      (levelOfScore s = RiskLevel.Low ↔ s < 3) := by
    intro s
    unfold levelOfScore
    split_ifs <;> refine ⟨?_, ?_, ?_, ?_⟩ <;> simp_all <;> omega
  refine ⟨?_, (hlevel (riskScore cf pct)).1, (hlevel (riskScore cf pct)).2.1,
    (hlevel (riskScore cf pct)).2.2.1, (hlevel (riskScore cf pct)).2.2.2⟩
  unfold riskScore
  rw [ite_weight (hasSchemaChanges cf) 3, ite_weight (hasDBChanges cf) 4,
    ite_weight (hasAuthChanges cf) 4, ite_weight (hasAPIChanges cf) 2,
    ite_weight (isLargeChange cf) 2, ite_weight (hasMultipleFiles cf) 1,
    ite_weight_prop (pct < 50) 3, ite_weight (hasFilesDeletion cf) 2]
  simp

theorem claim8_witness : riskLevel [] 100 = RiskLevel.Low :=
  ((claim8_fixed_weights_and_thresholds [] 100).2.2.2.2).mpr (by decide)

/-- C9 counterexample to the claim as stated: with the repository root
unobtainable and the changed-file list unproducible (both git calls
failing), the analysis does not fail — it returns a normal, successful
result with the current directory as root and an empty change set, rather
than propagating a terminal error. -/
theorem claim9_counterexample :
    analyzeIndirectDependenciesModel (Except.error "fatal: not a git repository") "/cwd"
      (Except.error "fatal: bad revision") [] 2
      = Except.ok ⟨[], []⟩ := by
  rfl

/-- C9 (amended): the analysis never fails when a foundational input
cannot be obtained: `findRepoRoot` falls back to the current working
directory and `getChangedFiles` falls back to the empty list, and the
overall analysis always returns a successful result. -/
theorem claim9_fallback_no_failure (revparse : Except String String) (cwd : String)
    (ds : Except String (List ChangedFile)) (fileImports : List (String × List String))
    (maxDepth : Nat) :
    isOkE (analyzeIndirectDependenciesModel revparse cwd ds fileImports maxDepth) = true ∧
    (∀ e, revparse = Except.error e → findRepoRoot revparse cwd = cwd) ∧
    (∀ e, ds = Except.error e → getChangedFiles ds = []) := by
  refine ⟨rfl, ?_, ?_⟩
  · intro e h
    rw [h]
    rfl
  · intro e h
    rw [h]
    rfl

theorem claim9_witness :
    findRepoRoot (Except.error "fatal: not a git repository") "/cwd" = "/cwd" ∧
    getChangedFiles (Except.error "fatal: bad revision" : Except String (List ChangedFile))
      = [] := by
  have h := claim9_fallback_no_failure (Except.error "fatal: not a git repository") "/cwd"
    (Except.error "fatal: bad revision") [] 2
  exact ⟨h.2.1 _ rfl, h.2.2 _ rfl⟩
